import Mathlib

/-!
Verification of the fittracker core: program sequencing, the session /
superset completion state machine, superset grouping, exercise history
lookup, and program workout tracking.

The repository is TypeScript/React.  The shallow embedding below follows
these conventions:

* `Array.prototype.sort(cmp)` with a consistent comparator is stable
  (ES2019); it is modelled by `stableSort`, a stable insertion sort, which
  computes the same (unique) stable, sorted permutation.
* JS `Array.prototype.find` / `findIndex` / bounded `for` loops are
  modelled by the structurally recursive `findJs` / `findIndexJs` /
  `findSomeJs` below.
* A JS `Set<string>` is modelled by a `List String` with membership-based
  insert and delete (`setAdd`, `setDelete`).
* A JS `Map<string, T>` is modelled by an association list with
  first-match lookup (`mapGet`) and in-place update (`mapSet`).
* An optional field (`x?: T`, possibly `undefined`/`null`) is modelled by
  `Option`.  JS truthiness of an optional string (`if (s)`) is false for
  both `undefined` and the empty string.
* Dates are `yyyy-MM-dd` strings compared through `new Date(...).getTime()`;
  a date is modelled by that numeric value (a `Nat`), which is
  order-isomorphic to the calendar dates the app stores.
* React state updates: each event handler is a function from the
  render-time state snapshot to the next state.  Several `setState(value)`
  calls on the *same* state variable within one handler all compute from
  the same snapshot and the last queued value wins; this matters only for
  the Ungroup button (`ungroupClick` below).
-/

namespace FitTracker

/-! ## Generic helpers modelling the JS primitives -/

/-- JS `Array.prototype.find`. -/
def findJs {α : Type} (p : α → Bool) : List α → Option α
  | [] => none
  | x :: xs => if p x then some x else findJs p xs

/-- JS `Array.prototype.findIndex`, with `-1` rendered as `none`. -/
def findIndexJs {α : Type} (p : α → Bool) : List α → Option Nat
  | [] => none
  | x :: xs => if p x then some 0 else (findIndexJs p xs).map (· + 1)

/-- A `for` loop that returns the first `some` produced by its body. -/
def findSomeJs {α β : Type} (f : α → Option β) : List α → Option β
  | [] => none
  | x :: xs => match f x with
    | some b => some b
    | none => findSomeJs f xs

/-- Index of the first occurrence of `a` (meaningful when `a` is present). -/
def idxOfJs (a : String) : List String → Nat
  | [] => 0
  | x :: xs => if x = a then 0 else idxOfJs a xs + 1

/-- `Set.add`: membership-based insert (JS sets keep insertion order). -/
def setAdd (l : List String) (x : String) : List String :=
  if x ∈ l then l else l ++ [x]

/-- `Set.delete`. -/
def setDelete (l : List String) (x : String) : List String :=
  l.filter (fun y => y ≠ x)

/-- Insert into a list sorted by `le`, before the first strictly greater
element (hence stable: existing equal elements stay in front). -/
def insertSorted {α : Type} (le : α → α → Bool) (x : α) : List α → List α
  | [] => [x]
  | y :: ys => if le x y then x :: y :: ys else y :: insertSorted le x ys

/-- Stable insertion sort: the model of `Array.prototype.sort` with a
consistent comparator. -/
def stableSort {α : Type} (le : α → α → Bool) : List α → List α
  | [] => []
  | x :: xs => insertSorted le x (stableSort le xs)

/-- `Map.get`, first matching key. -/
def mapGet {β : Type} : List (String × β) → String → Option β
  | [], _ => none
  | (k, v) :: rest, key => if k = key then some v else mapGet rest key

/-- `Map.set`: replace the binding in place, or append a new one. -/
def mapSet {β : Type} : List (String × β) → String → β → List (String × β)
  | [], key, v => [(key, v)]
  | (k, w) :: rest, key, v =>
    if k = key then (key, v) :: rest else (k, w) :: mapSet rest key v

/-! ### Lemmas about the helpers -/

theorem findSomeJs_eq_none_iff {α β : Type} (f : α → Option β) (l : List α) :
    findSomeJs f l = none ↔ ∀ x ∈ l, f x = none := by
  induction l with
  | nil => simp [findSomeJs]
  | cons x xs ih =>
    simp only [findSomeJs]
    cases hfx : f x with
    | some b => simp [hfx]
    | none => simpa [hfx] using ih

theorem findJs_eq_head_filter {α : Type} (p : α → Bool) (l : List α) :
    findJs p l = (l.filter p).head? := by
  induction l with
  | nil => simp [findJs]
  | cons x xs ih =>
    by_cases hx : p x <;> simp [findJs, List.filter_cons, hx, ih]

theorem mem_insertSorted {α : Type} (le : α → α → Bool) (x a : α) (l : List α) :
    a ∈ insertSorted le x l ↔ a = x ∨ a ∈ l := by
  induction l with
  | nil => simp [insertSorted]
  | cons y ys ih =>
    by_cases h : le x y
    · simp [insertSorted, h]
    · simp only [insertSorted, if_neg h, List.mem_cons, ih]
      tauto

theorem mem_stableSort {α : Type} (le : α → α → Bool) (a : α) (l : List α) :
    a ∈ stableSort le l ↔ a ∈ l := by
  induction l with
  | nil => simp [stableSort]
  | cons x xs ih => simp [stableSort, mem_insertSorted, ih]

theorem length_insertSorted {α : Type} (le : α → α → Bool) (x : α) (l : List α) :
    (insertSorted le x l).length = l.length + 1 := by
  induction l with
  | nil => simp [insertSorted]
  | cons y ys ih =>
    by_cases h : le x y <;> simp [insertSorted, h, ih]

theorem length_stableSort {α : Type} (le : α → α → Bool) (l : List α) :
    (stableSort le l).length = l.length := by
  induction l with
  | nil => simp [stableSort]
  | cons x xs ih => simp [stableSort, length_insertSorted, ih]

theorem stableSort_eq_nil_iff {α : Type} (le : α → α → Bool) (l : List α) :
    stableSort le l = [] ↔ l = [] := by
  constructor
  · intro h
    have := length_stableSort le l
    rw [h] at this
    exact List.length_eq_zero.mp this.symm
  · intro h; rw [h]; rfl

theorem findIndexJs_eq_none_iff {α : Type} (p : α → Bool) (l : List α) :
    findIndexJs p l = none ↔ ∀ x ∈ l, p x = false := by
  induction l with
  | nil => simp [findIndexJs]
  | cons x xs ih =>
    by_cases hx : p x
    · simp [findIndexJs, hx]
    · simp only [findIndexJs, if_neg hx, List.mem_cons, Option.map_eq_none']
      constructor
      · intro h y hy
        rcases hy with rfl | hy
        · simpa using hx
        · exact (ih.mp h) y hy
      · intro h
        exact ih.mpr fun y hy => h y (Or.inr hy)

theorem mem_setAdd {l : List String} {x y : String} :
    y ∈ setAdd l x ↔ y ∈ l ∨ y = x := by
  unfold setAdd
  by_cases h : x ∈ l
  · simp only [if_pos h]
    constructor
    · exact Or.inl
    · rintro (hy | rfl) <;> [exact hy; exact h]
  · simp [if_neg h]

theorem mem_setDelete {l : List String} {x y : String} :
    y ∈ setDelete l x ↔ y ∈ l ∧ y ≠ x := by
  simp [setDelete]

theorem map_eq_self {α : Type} (f : α → α) (l : List α) (h : ∀ x ∈ l, f x = x) :
    l.map f = l := by
  induction l with
  | nil => rfl
  | cons x xs ih =>
    simp only [List.map_cons]
    rw [h x (by simp), ih fun y hy => h y (by simp [hy])]

theorem mapGet_mapSet {β : Type} (m : List (String × β)) (k key : String) (v : β) :
    mapGet (mapSet m key v) k = if k = key then some v else mapGet m k := by
  induction m with
  | nil =>
    by_cases h : k = key
    · subst h; simp [mapSet, mapGet]
    · simp [mapSet, mapGet, h, Ne.symm h]
  | cons hd rest ih =>
    obtain ⟨k₀, v₀⟩ := hd
    by_cases h₀ : k₀ = key
    · subst h₀
      by_cases h : k = k₀
      · subst h; simp [mapSet, mapGet]
      · simp [mapSet, mapGet, h, Ne.symm h]
    · by_cases hk : k₀ = k
      · subst hk
        simp [mapSet, mapGet, h₀, Ne.symm h₀]
      · simp [mapSet, mapGet, h₀, hk, ih]

/-! ## Data model (src/types/index.ts)

Fields that none of the embedded operations read (creation timestamps on
sets, workout categories, and the like) are omitted; every field an
embedded function reads or writes is present. -/

/-- One workout's entry inside a program (`ProgramWorkout`). -/
structure ProgramWorkout where
  workoutId : String
  workoutName : String
  sequenceOrder : Int
  targetCount : Nat
  completedCount : Nat
  deriving DecidableEq, Repr

/-- A training program (`Program`). -/
structure Program where
  id : String
  name : String
  active : Bool
  workouts : List ProgramWorkout
  lastCompletedWorkoutId : Option String
  createdAt : String
  archivedAt : Option String
  deriving DecidableEq, Repr

/-- A single set within a session exercise (`SessionSet`). -/
structure SessionSet where
  id : String
  reps : Nat
  weight : Nat
  duration : Option Nat
  completed : Bool
  deriving DecidableEq, Repr

/-- An exercise being performed in a session (`SessionExercise`). -/
structure SessionExercise where
  id : String
  exerciseId : String
  exerciseName : String
  sets : List SessionSet
  notes : Option String
  supersetGroupId : Option String
  supersetOrder : Option Int
  deriving DecidableEq, Repr

/-- A logged gym visit (`Session`); only the fields the history lookup
reads.  `date` is the numeric value of `new Date(s.date).getTime()`. -/
structure Session where
  id : String
  date : Nat
  name : String
  exercises : List SessionExercise
  deriving DecidableEq, Repr

/-- An exercise within a saved workout (`WorkoutExercise`). -/
structure WorkoutExercise where
  id : String
  exerciseId : String
  exerciseName : String
  defaultSets : Nat
  defaultReps : Nat
  defaultWeight : Option Nat
  supersetGroupId : Option String
  supersetOrder : Option Int
  deriving DecidableEq, Repr

/-! ## ProgramSequencer and ProgramWorkoutTracker (src/utils/storage.ts) -/

/-- Comparator `(a, b) => a.sequenceOrder - b.sequenceOrder`. -/
def seqLe (a b : ProgramWorkout) : Bool :=
  a.sequenceOrder ≤ b.sequenceOrder

/-- The circular scan of `getNextProgramWorkout`:
`for (let i = 0; i < sorted.length; i++) { const idx = (startIndex + i) % sorted.length; ... }`. -/
def scanFrom (sorted : List ProgramWorkout) (startIndex : Nat) : Option ProgramWorkout :=
  findSomeJs
    (fun i =>
      match sorted[(startIndex + i) % sorted.length]? with
      | some w => if w.completedCount < w.targetCount then some w else none
      | none => none)
    (List.range sorted.length)

/-- The start-index computation of `getNextProgramWorkout`.  Note the JS
truthiness test `if (program.lastCompletedWorkoutId)`: both an absent id
and the empty string leave `startIndex` at 0, as does a
`findIndex` miss (`lastIdx === -1`). -/
def startIndexOf (lastCompletedWorkoutId : Option String)
    (sorted : List ProgramWorkout) : Nat :=
  match lastCompletedWorkoutId with
  | some lid =>
    if lid ≠ "" then
      match findIndexJs (fun w => w.workoutId = lid) sorted with
      | some lastIdx => (lastIdx + 1) % sorted.length
      | none => 0
    else 0
  | none => 0

/-- `getNextProgramWorkout` (storage.ts:568). -/
def getNextProgramWorkout (program : Program) : Option ProgramWorkout :=
  if program.workouts.length = 0 then none
  else if (stableSort seqLe program.workouts).all
      (fun w => w.targetCount ≤ w.completedCount) then none
  else
    scanFrom (stableSort seqLe program.workouts)
      (startIndexOf program.lastCompletedWorkoutId (stableSort seqLe program.workouts))

/-- `incrementProgramWorkoutCount` (storage.ts:538), at the granularity of
the single program row it reads, maps and writes back. -/
def incrementProgramWorkoutCount (program : Program) (workoutId : String) : Program :=
  { program with
    workouts := program.workouts.map fun w =>
      if w.workoutId = workoutId then { w with completedCount := w.completedCount + 1 } else w,
    lastCompletedWorkoutId := some workoutId }

/-- `program.lastCompletedWorkoutId || null` in the insert of `addProgram`. -/
def jsStringOrNull : Option String → Option String
  | some s => if s ≠ "" then some s else none
  | none => none

/-- `addProgram` (storage.ts:493) over the stored list of programs of this
device: first every active program is deactivated and stamped, then the
new program is inserted with `active: true`. -/
def addProgram (db : List Program) (program : Program) (now : String) : List Program :=
  (db.map fun p =>
    if p.active then { p with active := false, archivedAt := some now } else p)
  ++ [{ id := program.id
        name := program.name
        active := true
        workouts := program.workouts
        lastCompletedWorkoutId := jsStringOrNull program.lastCompletedWorkoutId
        createdAt := program.createdAt
        archivedAt := none }]

/-! ## ExerciseHistoryLookup (src/utils/storage.ts:119) -/

/-- The projected history record returned to the session logger
(`ExerciseHistory`). -/
structure HistorySet where
  reps : Nat
  weight : Nat
  duration : Option Nat
  completed : Bool
  deriving DecidableEq, Repr

structure ExerciseHistory where
  date : Nat
  sessionName : String
  sets : List HistorySet
  notes : Option String
  deriving DecidableEq, Repr

/-- Comparator `(a, b) => new Date(b.date).getTime() - new Date(a.date).getTime()`:
descending by date. -/
def dateGe (a b : Session) : Bool :=
  b.date ≤ a.date

/-- Projection of a found session exercise to its history record. -/
def mkHistory (s : Session) (ex : SessionExercise) : ExerciseHistory :=
  { date := s.date
    sessionName := s.name
    sets := ex.sets.map fun st =>
      { reps := st.reps, weight := st.weight, duration := st.duration, completed := st.completed }
    notes := ex.notes }

/-- The `for (const session of sortedSessions)` loop body of
`getLastExerciseHistory`. -/
def historyLoop (exerciseId : String) : List Session → Option ExerciseHistory
  | [] => none
  | s :: rest =>
    match findJs (fun ex => ex.exerciseId = exerciseId) s.exercises with
    | some exerciseData => some (mkHistory s exerciseData)
    | none => historyLoop exerciseId rest

/-- `getLastExerciseHistory` (storage.ts:119). -/
def getLastExerciseHistory (sessions : List Session) (exerciseId : String)
    (excludeSessionId : Option String) : Option ExerciseHistory :=
  let sortedSessions :=
    stableSort dateGe (sessions.filter fun s => some s.id ≠ excludeSessionId)
  historyLoop exerciseId sortedSessions

/-! ## SessionExerciseStateMachine and SupersetGrouping
(src/components/SessionLogger.tsx) -/

/-- The state the session logger keeps while a session is being logged:
the exercise list plus the completed / expanded id sets. -/
structure SessionState where
  exercises : List SessionExercise
  completedExercises : List String
  expandedExercises : List String
  deriving DecidableEq, Repr

/-- `getSupersetGroups` (SessionLogger.tsx:386): group id → members, in
scan order. -/
def getSupersetGroups (exercises : List SessionExercise) :
    List (String × List SessionExercise) :=
  exercises.foldl
    (fun groups ex =>
      match ex.supersetGroupId with
      | some gid => mapSet groups gid ((mapGet groups gid).getD [] ++ [ex])
      | none => groups)
    []

/-- Members of a group as the session logger reads them:
`supersetGroups.get(groupId) || []`. -/
def groupMembers (exercises : List SessionExercise) (groupId : String) :
    List SessionExercise :=
  (mapGet (getSupersetGroups exercises) groupId).getD []

/-- `toggleSetComplete` (SessionLogger.tsx:200). -/
def toggleSetComplete (exerciseId setId : String) (st : SessionState) : SessionState :=
  { st with
    exercises := st.exercises.map fun ex =>
      if ex.id = exerciseId then
        { ex with sets := ex.sets.map fun s =>
            if s.id = setId then { s with completed := !s.completed } else s }
      else ex }

/-- `markExerciseComplete` (SessionLogger.tsx:229): force every set
completed, add to the completed set, collapse. -/
def markExerciseComplete (exerciseId : String) (st : SessionState) : SessionState :=
  { exercises := st.exercises.map fun ex =>
      if ex.id = exerciseId then
        { ex with sets := ex.sets.map fun s => { s with completed := true } }
      else ex
    completedExercises := setAdd st.completedExercises exerciseId
    expandedExercises := setDelete st.expandedExercises exerciseId }

/-- `undoExerciseComplete` (SessionLogger.tsx:251): only the completed /
expanded sets change; the exercises (and their set flags) are untouched. -/
def undoExerciseComplete (exerciseId : String) (st : SessionState) : SessionState :=
  { st with
    completedExercises := setDelete st.completedExercises exerciseId
    expandedExercises := setAdd st.expandedExercises exerciseId }

/-- `markSupersetComplete` (SessionLogger.tsx:262). -/
def markSupersetComplete (groupId : String) (st : SessionState) : SessionState :=
  let groupExercises := groupMembers st.exercises groupId
  { exercises := st.exercises.map fun ex =>
      if ex.supersetGroupId = some groupId then
        { ex with sets := ex.sets.map fun s => { s with completed := true } }
      else ex
    completedExercises :=
      groupExercises.foldl (fun next ex => setAdd next ex.id) st.completedExercises
    expandedExercises :=
      groupExercises.foldl (fun next ex => setDelete next ex.id) st.expandedExercises }

/-- `undoSupersetComplete` (SessionLogger.tsx:289). -/
def undoSupersetComplete (groupId : String) (st : SessionState) : SessionState :=
  let groupExercises := groupMembers st.exercises groupId
  { st with
    completedExercises :=
      groupExercises.foldl (fun next ex => setDelete next ex.id) st.completedExercises
    expandedExercises :=
      groupExercises.foldl (fun next ex => setAdd next ex.id) st.expandedExercises }

/-- `isSupersetComplete` (SessionLogger.tsx:305): derived, not stored. -/
def isSupersetComplete (groupId : String) (st : SessionState) : Bool :=
  (groupMembers st.exercises groupId).all fun ex =>
    st.completedExercises.contains ex.id

/-- Comparator `(a, b) => (a.supersetOrder || 0) - (b.supersetOrder || 0)`. -/
def supersetLe (a b : SessionExercise) : Bool :=
  a.supersetOrder.getD 0 ≤ b.supersetOrder.getD 0

/-- A display unit produced by `getGroupedExercises`. -/
inductive DisplayUnit where
  | single (ex : SessionExercise)
  | superset (groupId : String) (exercises : List SessionExercise)
  deriving DecidableEq, Repr

/-- The `exercises.forEach` scan of `getGroupedExercises`, with the
render-time `supersetGroups` map fixed. -/
def groupedLoop (groups : List (String × List SessionExercise)) :
    List SessionExercise → List String → List DisplayUnit
  | [], _ => []
  | ex :: rest, processed =>
    match ex.supersetGroupId with
    | some gid =>
      if processed.contains gid then groupedLoop groups rest processed
      else
        DisplayUnit.superset gid (stableSort supersetLe ((mapGet groups gid).getD []))
          :: groupedLoop groups rest (processed ++ [gid])
    | none => DisplayUnit.single ex :: groupedLoop groups rest processed

/-- `getGroupedExercises` (SessionLogger.tsx:401). -/
def getGroupedExercises (exercises : List SessionExercise) : List DisplayUnit :=
  groupedLoop (getSupersetGroups exercises) exercises []

/-! ## WorkoutEditor superset actions (src/components/ExerciseEditor.tsx) -/

/-- The editor state the superset actions touch. -/
structure EditorState where
  exercises : List WorkoutExercise
  selectedForSuperset : List String
  supersetMode : Bool
  deriving DecidableEq, Repr

/-- The `let order = 0; exercises.map(...)` body of `createSuperset`:
selected exercises get the fresh group id and sequential orders. -/
def assignSuperset (selected : List String) (supersetId : String) :
    List WorkoutExercise → Nat → List WorkoutExercise
  | [], _ => []
  | ex :: rest, order =>
    if selected.contains ex.id then
      { ex with supersetGroupId := some supersetId, supersetOrder := some (order : Int) }
        :: assignSuperset selected supersetId rest (order + 1)
    else ex :: assignSuperset selected supersetId rest order

/-- `createSuperset` (ExerciseEditor.tsx:294); `supersetId` stands for the
generated `superset-${Date.now()}` string. -/
def createSuperset (st : EditorState) (supersetId : String) : EditorState :=
  if st.selectedForSuperset.length < 2 then st
  else
    { exercises := assignSuperset st.selectedForSuperset supersetId st.exercises 0
      selectedForSuperset := []
      supersetMode := false }

/-- `removeFromSuperset` (ExerciseEditor.tsx:311) applied to a given
exercises array. -/
def removeFromSuperset (exercises : List WorkoutExercise) (exerciseId : String) :
    List WorkoutExercise :=
  exercises.map fun ex =>
    if ex.id = exerciseId then { ex with supersetGroupId := none, supersetOrder := none }
    else ex

/-- The Ungroup button (ExerciseEditor.tsx:499):
`item.exercises.forEach(ex => removeFromSuperset(ex.id))`.  Every
`removeFromSuperset` call maps over the *render-time* `exercises`
snapshot and passes the result to `setExercises`; the queued replacement
updates are applied in order, so the value computed by the last call is
the state after the event. -/
def ungroupClick (exercises : List WorkoutExercise) (memberIds : List String) :
    List WorkoutExercise :=
  memberIds.foldl (fun _pending mid => removeFromSuperset exercises mid) exercises

/-! ## Claim-side definitions

Each of these follows the wording of the specification, to be compared
with the embedded source functions above. -/

/-- The claim's start index: `(index of lastCompletedWorkoutId) + 1 mod N`
when that id is *present in the sorted list*, 0 otherwise (unset or
removed id). -/
def claimStartIndex (lastCompletedWorkoutId : Option String)
    (sorted : List ProgramWorkout) : Nat :=
  match lastCompletedWorkoutId with
  | some lid =>
    if lid ∈ sorted.map (·.workoutId) then
      (idxOfJs lid (sorted.map (·.workoutId)) + 1) % sorted.length
    else 0
  | none => 0

/-- `claimStartIndex` amended for JS truthiness: an *empty-string*
`lastCompletedWorkoutId` also counts as unset, exactly as the code's
`if (program.lastCompletedWorkoutId)` treats it. -/
def claimStartIndexAmended (lastCompletedWorkoutId : Option String)
    (sorted : List ProgramWorkout) : Nat :=
  match lastCompletedWorkoutId with
  | some lid =>
    if lid ≠ "" ∧ lid ∈ sorted.map (·.workoutId) then
      (idxOfJs lid (sorted.map (·.workoutId)) + 1) % sorted.length
    else 0
  | none => 0

/-- The sequencer as the specification words it: sort by `sequenceOrder`
ascending; no next workout when the list is empty or every entry met its
target; start per `claimStartIndex`; circular scan of at most N entries
for the first entry below target. -/
def nextWorkoutClaim (program : Program) : Option ProgramWorkout :=
  if program.workouts.all (fun w => w.targetCount ≤ w.completedCount) then none
  else
    scanFrom (stableSort seqLe program.workouts)
      (claimStartIndex program.lastCompletedWorkoutId (stableSort seqLe program.workouts))

/-- `nextWorkoutClaim` with the start index amended for JS truthiness. -/
def nextWorkoutClaimAmended (program : Program) : Option ProgramWorkout :=
  if program.workouts.all (fun w => w.targetCount ≤ w.completedCount) then none
  else
    scanFrom (stableSort seqLe program.workouts)
      (claimStartIndexAmended program.lastCompletedWorkoutId
        (stableSort seqLe program.workouts))

/-- "The most recent session by date descending, ties among same-date
sessions resolved by their order in the input collection": the first
element attaining the maximal date. -/
def mostRecent : List Session → Option Session
  | [] => none
  | s :: rest =>
    match mostRecent rest with
    | none => some s
    | some t => if t.date ≤ s.date then some s else some t

/-- Whether a session contains the exercise. -/
def containsExercise (exerciseId : String) (s : Session) : Bool :=
  s.exercises.any fun ex => ex.exerciseId = exerciseId

/-- The projection of a session to the history record of the (first)
matching exercise. -/
def projectHistory (exerciseId : String) (s : Session) : Option ExerciseHistory :=
  (findJs (fun ex => ex.exerciseId = exerciseId) s.exercises).map (mkHistory s)

/-- The candidate sessions of the history lookup: not the excluded
session, and containing the exercise. -/
def historyCandidates (sessions : List Session) (exerciseId : String)
    (excludeSessionId : Option String) : List Session :=
  (sessions.filter fun s => some s.id ≠ excludeSessionId).filter
    (containsExercise exerciseId)

/-- The grouping scan as the specification words it: standalone items in
place; at the first item carrying a not-yet-seen group id, a cluster of
*all input items sharing that id* sorted by `supersetOrder` ascending
(stable); later items of an emitted group skipped. -/
def groupedSpecLoop (allExercises : List SessionExercise) :
    List SessionExercise → List String → List DisplayUnit
  | [], _ => []
  | ex :: rest, seen =>
    match ex.supersetGroupId with
    | some gid =>
      if seen.contains gid then groupedSpecLoop allExercises rest seen
      else
        DisplayUnit.superset gid
            (stableSort supersetLe
              (allExercises.filter fun e => e.supersetGroupId = some gid))
          :: groupedSpecLoop allExercises rest (seen ++ [gid])
    | none => DisplayUnit.single ex :: groupedSpecLoop allExercises rest seen

def groupedSpec (exercises : List SessionExercise) : List DisplayUnit :=
  groupedSpecLoop exercises exercises []

/-- The ids of the members of a superset group, in input order. -/
def memberIds (groupId : String) (st : SessionState) : List String :=
  (st.exercises.filter fun ex => ex.supersetGroupId = some groupId).map (·.id)

/-! ## C1: the program sequencer -/

theorem cycle_mod (start j N : Nat) (hN : 0 < N) (hj : j < N) :
    (start + (j + (N - start % N)) % N) % N = j := by
  have hs : start % N < N := Nat.mod_lt _ hN
  calc (start + (j + (N - start % N)) % N) % N
      = (start % N + (j + (N - start % N)) % N) % N := (Nat.mod_add_mod _ _ _).symm
    _ = (start % N + (j + (N - start % N))) % N := Nat.add_mod_mod _ _ _
    _ = (j + N) % N := by
        rw [show start % N + (j + (N - start % N)) = j + N from by omega]
    _ = j % N := Nat.add_mod_right j N
    _ = j := Nat.mod_eq_of_lt hj

/-- The circular scan cannot miss: if some entry of the (nonempty) list is
below target, the bounded loop finds one, whatever the start index. -/
theorem scanFrom_ne_none (sorted : List ProgramWorkout) (start : Nat)
    (w : ProgramWorkout) (hw : w ∈ sorted) (hinc : w.completedCount < w.targetCount) :
    scanFrom sorted start ≠ none := by
  intro hnone
  rw [scanFrom, findSomeJs_eq_none_iff] at hnone
  obtain ⟨j, hj, hget⟩ := List.mem_iff_getElem.mp hw
  have hN : 0 < sorted.length := Nat.lt_of_le_of_lt (Nat.zero_le j) hj
  have hi₀N : (j + (sorted.length - start % sorted.length)) % sorted.length <
      sorted.length := Nat.mod_lt _ hN
  have hcontra := hnone _ (List.mem_range.mpr hi₀N)
  rw [cycle_mod start j sorted.length hN hj] at hcontra
  rw [List.getElem?_eq_getElem hj, hget] at hcontra
  simp [hinc] at hcontra

theorem all_stableSort {α : Type} (le : α → α → Bool) (p : α → Bool) (l : List α) :
    (stableSort le l).all p = l.all p := by
  cases hb : l.all p with
  | true =>
    rw [List.all_eq_true] at hb ⊢
    exact fun x hx => hb x ((mem_stableSort le x l).mp hx)
  | false =>
    rw [List.all_eq_false] at hb ⊢
    obtain ⟨x, hx, hpx⟩ := hb
    exact ⟨x, (mem_stableSort le x l).mpr hx, hpx⟩

/-- `findIndex` hit/miss in terms of presence and first index among the
mapped ids. -/
theorem findIndexJs_workoutId (lid : String) (l : List ProgramWorkout) :
    findIndexJs (fun w => w.workoutId = lid) l =
      if lid ∈ l.map (·.workoutId) then some (idxOfJs lid (l.map (·.workoutId)))
      else none := by
  induction l with
  | nil => simp [findIndexJs]
  | cons w rest ih =>
    by_cases hw : w.workoutId = lid
    · simp [findIndexJs, hw, idxOfJs]
    · by_cases hmem : lid ∈ rest.map (·.workoutId)
      · simp [findIndexJs, hw, idxOfJs, hmem, ih, Ne.symm hw]
      · simp [findIndexJs, hw, idxOfJs, hmem, ih, Ne.symm hw]

/-- The code's start index agrees with the amended claim start index. -/
theorem startIndexOf_eq_claimAmended (last : Option String)
    (sorted : List ProgramWorkout) :
    startIndexOf last sorted = claimStartIndexAmended last sorted := by
  cases last with
  | none => rfl
  | some lid =>
    by_cases hemp : lid = ""
    · simp [startIndexOf, claimStartIndexAmended, hemp]
    · by_cases hmem : lid ∈ sorted.map (·.workoutId)
      · simp [startIndexOf, claimStartIndexAmended, hemp, hmem, findIndexJs_workoutId]
      · simp [startIndexOf, claimStartIndexAmended, hemp, hmem, findIndexJs_workoutId]

/-- **C1 (amended).** `getNextProgramWorkout` returns no next workout
exactly when the program is empty or fully targeted; otherwise it scans
the sequence-sorted entries circularly from (index of
`lastCompletedWorkoutId`) + 1 when that id is a *non-empty* string present
in the list (an empty-string id, like an unset or removed one, falls back
to the start), returning the first entry below target. -/
theorem getNextProgramWorkout_spec (p : Program) :
    getNextProgramWorkout p = nextWorkoutClaimAmended p ∧
    (getNextProgramWorkout p = none ↔
      (p.workouts = [] ∨ ∀ w ∈ p.workouts, w.targetCount ≤ w.completedCount)) := by
  constructor
  · unfold getNextProgramWorkout nextWorkoutClaimAmended
    by_cases hnil : p.workouts = []
    · simp [hnil]
    · have hlen : ¬(p.workouts.length = 0) := by
        simpa [List.length_eq_zero] using hnil
      rw [if_neg hlen]
      rw [all_stableSort seqLe _ p.workouts]
      by_cases hcomp : (p.workouts.all fun w => w.targetCount ≤ w.completedCount) = true
      · rw [if_pos hcomp, if_pos hcomp]
      · rw [if_neg hcomp, if_neg hcomp, startIndexOf_eq_claimAmended]
  · constructor
    · intro hnone
      by_cases hnil : p.workouts = []
      · exact Or.inl hnil
      · right
        have hlen : ¬(p.workouts.length = 0) := by
          simpa [List.length_eq_zero] using hnil
        rw [getNextProgramWorkout] at hnone
        rw [if_neg hlen] at hnone
        by_cases hcomp :
            ((stableSort seqLe p.workouts).all fun w => w.targetCount ≤ w.completedCount)
              = true
        · rw [all_stableSort] at hcomp
          rw [List.all_eq_true] at hcomp
          intro w hw
          simpa using hcomp w hw
        · exfalso
          rw [if_neg hcomp] at hnone
          have hfalse :
              ((stableSort seqLe p.workouts).all fun w =>
                w.targetCount ≤ w.completedCount) = false :=
            Bool.eq_false_iff.mpr hcomp
          rw [List.all_eq_false] at hfalse
          obtain ⟨w, hw, hpw⟩ := hfalse
          have hinc : w.completedCount < w.targetCount := by
            simpa [Nat.not_le] using hpw
          exact scanFrom_ne_none _ _ w hw hinc hnone
    · intro h
      rcases h with hnil | hall
      · simp [getNextProgramWorkout, hnil]
      · rw [getNextProgramWorkout]
        by_cases hlen : p.workouts.length = 0
        · rw [if_pos hlen]
        · rw [if_neg hlen]
          have : ((stableSort seqLe p.workouts).all fun w =>
              w.targetCount ≤ w.completedCount) = true := by
            rw [all_stableSort, List.all_eq_true]
            intro w hw
            simpa using hall w hw
          rw [if_pos this]

/-- The program refuting C1 as stated: `lastCompletedWorkoutId` is the
empty string, which *is* present in the workout list, yet the code's
truthiness test ignores it and starts at index 0. -/
def c1CexProgram : Program :=
  ⟨"p", "P", true, [⟨"", "A", 0, 1, 0⟩, ⟨"b", "B", 1, 1, 0⟩], some "", "2024-01-01", none⟩

/-- Counterexample to C1 as stated: on `c1CexProgram` the code returns
entry A (start fell back to 0) while the claim's scan — starting after
the present id's index — returns entry B. -/
theorem nextWorkout_claim_counterexample :
    getNextProgramWorkout c1CexProgram = some ⟨"", "A", 0, 1, 0⟩ ∧
    nextWorkoutClaim c1CexProgram = some ⟨"b", "B", 1, 1, 0⟩ ∧
    getNextProgramWorkout c1CexProgram ≠ nextWorkoutClaim c1CexProgram := by
  refine ⟨by decide, by decide, by decide⟩

def c1WitnessProgram : Program :=
  ⟨"p", "P", true, [⟨"a", "A", 0, 1, 1⟩, ⟨"b", "B", 1, 2, 0⟩, ⟨"c", "C", 2, 1, 0⟩],
    some "a", "2024-01-01", none⟩

theorem getNextProgramWorkout_spec_witness :
    (getNextProgramWorkout c1WitnessProgram = nextWorkoutClaimAmended c1WitnessProgram ∧
      (getNextProgramWorkout c1WitnessProgram = none ↔
        (c1WitnessProgram.workouts = [] ∨
          ∀ w ∈ c1WitnessProgram.workouts, w.targetCount ≤ w.completedCount))) ∧
    getNextProgramWorkout c1WitnessProgram = some ⟨"b", "B", 1, 2, 0⟩ :=
  ⟨getNextProgramWorkout_spec c1WitnessProgram, by decide⟩

/-! ## C7: the exercise history lookup -/

/-- Sortedness with respect to a boolean comparator. -/
def sortedB {α : Type} (le : α → α → Bool) (l : List α) : Prop :=
  l.Pairwise fun a b => le a b = true

theorem insertSorted_front {α : Type} (le : α → α → Bool) (x : α) (l : List α)
    (h : ∀ z ∈ l, le x z = true) : insertSorted le x l = x :: l := by
  cases l with
  | nil => rfl
  | cons z zs => exact if_pos (h z (List.mem_cons_self z zs))

theorem sortedB_insertSorted {α : Type} (le : α → α → Bool)
    (htot : ∀ a b, le a b = true ∨ le b a = true)
    (htrans : ∀ a b c, le a b = true → le b c = true → le a c = true)
    (x : α) (l : List α) (hl : sortedB le l) : sortedB le (insertSorted le x l) := by
  induction l with
  | nil => simp [insertSorted, sortedB]
  | cons y ys ih =>
    rw [sortedB, List.pairwise_cons] at hl
    obtain ⟨hy, hys⟩ := hl
    by_cases h : le x y = true
    · rw [insertSorted, if_pos h, sortedB, List.pairwise_cons]
      refine ⟨?_, List.pairwise_cons.mpr ⟨hy, hys⟩⟩
      intro z hz
      rcases List.mem_cons.mp hz with rfl | hz
      · exact h
      · exact htrans x y z h (hy z hz)
    · rw [insertSorted, if_neg h, sortedB, List.pairwise_cons]
      constructor
      · intro z hz
        rcases (mem_insertSorted le x z ys).mp hz with rfl | hz
        · rcases htot z y with hzy | hyz
          · exact absurd hzy h
          · exact hyz
        · exact hy z hz
      · exact ih hys

theorem sortedB_stableSort {α : Type} (le : α → α → Bool)
    (htot : ∀ a b, le a b = true ∨ le b a = true)
    (htrans : ∀ a b c, le a b = true → le b c = true → le a c = true)
    (l : List α) : sortedB le (stableSort le l) := by
  induction l with
  | nil => simp [stableSort, sortedB]
  | cons x xs ih => exact sortedB_insertSorted le htot htrans x _ ih

theorem filter_insertSorted {α : Type} (le : α → α → Bool) (p : α → Bool)
    (htrans : ∀ a b c, le a b = true → le b c = true → le a c = true)
    (x : α) (l : List α) (hl : sortedB le l) :
    (insertSorted le x l).filter p =
      if p x then insertSorted le x (l.filter p) else l.filter p := by
  induction l with
  | nil =>
    by_cases hpx : p x <;> simp [insertSorted, hpx]
  | cons y ys ih =>
    rw [sortedB, List.pairwise_cons] at hl
    obtain ⟨hy, hys⟩ := hl
    by_cases h : le x y = true
    · rw [insertSorted, if_pos h]
      by_cases hpx : p x
      · rw [List.filter_cons, if_pos (by simpa using hpx), if_pos hpx]
        rw [insertSorted_front]
        intro z hz
        have hz' : z ∈ y :: ys := List.mem_of_mem_filter hz
        rcases List.mem_cons.mp hz' with rfl | hz'
        · exact h
        · exact htrans x y z h (hy z hz')
      · rw [List.filter_cons, if_neg (by simpa using hpx), if_neg hpx]
    · by_cases hpx : p x
        <;> by_cases hpy : p y
        <;> simp [insertSorted, h, hpx, hpy, ih hys]

theorem filter_stableSort {α : Type} (le : α → α → Bool) (p : α → Bool)
    (htot : ∀ a b, le a b = true ∨ le b a = true)
    (htrans : ∀ a b c, le a b = true → le b c = true → le a c = true)
    (l : List α) :
    (stableSort le l).filter p = stableSort le (l.filter p) := by
  induction l with
  | nil => rfl
  | cons x xs ih =>
    rw [stableSort, filter_insertSorted le p htrans x _ (sortedB_stableSort le htot htrans xs),
      ih, List.filter_cons]
    by_cases hpx : p x
    · rw [if_pos hpx, if_pos (by simpa using hpx), stableSort]
    · rw [if_neg hpx, if_neg (by simpa using hpx)]

theorem dateGe_total (a b : Session) : dateGe a b = true ∨ dateGe b a = true := by
  unfold dateGe
  rcases Nat.le_total b.date a.date with h | h
  · exact Or.inl (by simpa using h)
  · exact Or.inr (by simpa using h)

theorem dateGe_trans (a b c : Session) :
    dateGe a b = true → dateGe b c = true → dateGe a c = true := by
  unfold dateGe
  intro h1 h2
  simp only [decide_eq_true_eq] at h1 h2 ⊢
  exact Nat.le_trans h2 h1

/-- The head of the descending stable sort is the first input element
attaining the maximal date. -/
theorem head_stableSort_mostRecent (l : List Session) :
    (stableSort dateGe l).head? = mostRecent l := by
  induction l with
  | nil => rfl
  | cons s rest ih =>
    rw [stableSort]
    cases hrest : stableSort dateGe rest with
    | nil =>
      rw [hrest] at ih
      rw [mostRecent, ← ih]
      rfl
    | cons h t =>
      rw [hrest] at ih
      rw [mostRecent, ← ih]
      simp only [List.head?_cons]
      by_cases hd : h.date ≤ s.date
      · rw [insertSorted, if_pos (by simpa [dateGe] using hd), if_pos hd]
        rfl
      · rw [insertSorted, if_neg (by simpa [dateGe] using hd), if_neg hd]
        rfl

theorem findJs_isSome_eq_any {α : Type} (p : α → Bool) (l : List α) :
    (findJs p l).isSome = l.any p := by
  induction l with
  | nil => rfl
  | cons x xs ih =>
    by_cases hx : p x <;> simp [findJs, hx, ih]

/-- The history loop is: find the first session containing the exercise,
project it. -/
theorem historyLoop_eq (exerciseId : String) (l : List Session) :
    historyLoop exerciseId l =
      (findJs (containsExercise exerciseId) l).bind (projectHistory exerciseId) := by
  induction l with
  | nil => rfl
  | cons s rest ih =>
    rw [historyLoop]
    cases hfind : findJs (fun ex => ex.exerciseId = exerciseId) s.exercises with
    | some ex =>
      have hcont : containsExercise exerciseId s = true := by
        rw [containsExercise, ← findJs_isSome_eq_any, hfind]
        rfl
      rw [findJs, if_pos hcont, Option.some_bind, projectHistory, hfind, Option.map_some']
    | none =>
      have hcont : containsExercise exerciseId s = false := by
        rw [containsExercise, ← findJs_isSome_eq_any, hfind]
        rfl
      rw [findJs, if_neg (by simp [hcont]), ih]

theorem mostRecent_mem : ∀ (l : List Session) (t : Session), mostRecent l = some t → t ∈ l := by
  intro l
  induction l with
  | nil => intro t ht; cases ht
  | cons s rest ih =>
    intro t ht
    rw [mostRecent] at ht
    cases hrest : mostRecent rest with
    | none =>
      simp only [hrest] at ht
      cases ht
      exact List.mem_cons_self _ _
    | some u =>
      simp only [hrest] at ht
      by_cases hd : u.date ≤ s.date
      · rw [if_pos hd] at ht
        cases ht
        exact List.mem_cons_self _ _
      · rw [if_neg hd] at ht
        cases ht
        exact List.mem_cons_of_mem _ (ih _ hrest)

theorem mostRecent_ne_none (s : Session) (rest : List Session) :
    mostRecent (s :: rest) ≠ none := by
  rw [mostRecent]
  cases hrest : mostRecent rest with
  | none => simp [hrest]
  | some u =>
    simp only [hrest]
    split <;> simp

/-- **C7.** `getLastExerciseHistory` returns exactly the projection (set
values and notes) of the most recent candidate session — not excluded,
containing the exercise, maximal date, input order breaking ties — and
`none` exactly when no candidate exists. -/
theorem getLastExerciseHistory_spec (sessions : List Session) (exerciseId : String)
    (excludeSessionId : Option String) :
    getLastExerciseHistory sessions exerciseId excludeSessionId =
      (mostRecent (historyCandidates sessions exerciseId excludeSessionId)).bind
        (projectHistory exerciseId) ∧
    (getLastExerciseHistory sessions exerciseId excludeSessionId = none ↔
      historyCandidates sessions exerciseId excludeSessionId = []) := by
  have h1 : getLastExerciseHistory sessions exerciseId excludeSessionId =
      (mostRecent (historyCandidates sessions exerciseId excludeSessionId)).bind
        (projectHistory exerciseId) := by
    rw [getLastExerciseHistory, historyLoop_eq, findJs_eq_head_filter,
      filter_stableSort dateGe _ dateGe_total dateGe_trans,
      head_stableSort_mostRecent]
    rfl
  refine ⟨h1, ?_⟩
  rw [h1]
  cases hc : historyCandidates sessions exerciseId excludeSessionId with
  | nil => simp [mostRecent]
  | cons s rest =>
    constructor
    · intro hnone
      exfalso
      cases hmr : mostRecent (s :: rest) with
      | none => exact mostRecent_ne_none s rest hmr
      | some t =>
        have ht : t ∈ s :: rest := mostRecent_mem _ t hmr
        rw [← hc] at ht
        have hcont : containsExercise exerciseId t = true :=
          List.of_mem_filter ht
        rw [hmr, Option.some_bind] at hnone
        rw [projectHistory] at hnone
        cases hfind : findJs (fun ex => ex.exerciseId = exerciseId) t.exercises with
        | some ex => rw [hfind] at hnone; cases hnone
        | none =>
          rw [containsExercise, ← findJs_isSome_eq_any, hfind] at hcont
          cases hcont
    · intro h
      exact absurd h (List.cons_ne_nil s rest)

def c7Sessions : List Session :=
  [⟨"s1", 300, "Later", [⟨"e1", "bench", "Bench", [⟨"t1", 5, 100, none, true⟩], some "pr", none, none⟩]⟩,
    ⟨"s2", 300, "LaterTie", [⟨"e2", "bench", "Bench", [⟨"t2", 3, 90, none, false⟩], none, none, none⟩]⟩,
    ⟨"s3", 100, "Old", [⟨"e3", "bench", "Bench", [⟨"t3", 8, 80, none, true⟩], none, none, none⟩]⟩]

theorem getLastExerciseHistory_spec_witness :
    (getLastExerciseHistory c7Sessions "bench" (some "s9") =
      (mostRecent (historyCandidates c7Sessions "bench" (some "s9"))).bind
        (projectHistory "bench") ∧
    (getLastExerciseHistory c7Sessions "bench" (some "s9") = none ↔
      historyCandidates c7Sessions "bench" (some "s9") = [])) ∧
    getLastExerciseHistory c7Sessions "bench" (some "s9") =
      some ⟨300, "Later", [⟨5, 100, none, true⟩], some "pr"⟩ :=
  ⟨getLastExerciseHistory_spec c7Sessions "bench" (some "s9"), by decide⟩

/-! ## C2: superset grouping -/

theorem getSupersetGroups_foldl (g : String) :
    ∀ (exercises : List SessionExercise) (acc : List (String × List SessionExercise)),
      (mapGet
        (exercises.foldl
          (fun groups ex =>
            match ex.supersetGroupId with
            | some gid => mapSet groups gid ((mapGet groups gid).getD [] ++ [ex])
            | none => groups)
          acc) g).getD [] =
      (mapGet acc g).getD [] ++ (exercises.filter fun e => e.supersetGroupId = some g) := by
  intro exercises
  induction exercises with
  | nil => intro acc; simp
  | cons ex rest ih =>
    intro acc
    rw [List.foldl_cons]
    cases hex : ex.supersetGroupId with
    | none =>
      have hpred : (ex.supersetGroupId = some g) = False := by simp [hex]
      simp only [hex]
      rw [ih, List.filter_cons]
      simp [hpred]
    | some gid =>
      simp only [hex]
      rw [ih, mapGet_mapSet]
      by_cases hg : g = gid
      · subst hg
        have hpred : ex.supersetGroupId = some g := hex
        rw [if_pos rfl, List.filter_cons, if_pos (by simp [hpred])]
        simp
      · rw [if_neg hg, List.filter_cons, if_neg (by simp [hex, Ne.symm hg])]

/-- `supersetGroups.get(g) || []` is exactly the input items sharing the
group id, in input order. -/
theorem mapGet_getSupersetGroups (exercises : List SessionExercise) (g : String) :
    (mapGet (getSupersetGroups exercises) g).getD [] =
      exercises.filter fun e => e.supersetGroupId = some g := by
  have h := getSupersetGroups_foldl g exercises []
  simpa [getSupersetGroups, mapGet] using h

theorem groupMembers_eq_filter (exercises : List SessionExercise) (g : String) :
    groupMembers exercises g = exercises.filter fun e => e.supersetGroupId = some g :=
  mapGet_getSupersetGroups exercises g

theorem groupedLoop_eq_spec (allExercises : List SessionExercise) :
    ∀ (rest : List SessionExercise) (seen : List String),
      groupedLoop (getSupersetGroups allExercises) rest seen =
        groupedSpecLoop allExercises rest seen := by
  intro rest
  induction rest with
  | nil => intro seen; rfl
  | cons ex rest ih =>
    intro seen
    cases hex : ex.supersetGroupId with
    | none => simp only [groupedLoop, groupedSpecLoop, hex]; rw [ih]
    | some gid =>
      simp only [groupedLoop, groupedSpecLoop, hex]
      by_cases hseen : seen.contains gid = true
      · rw [if_pos hseen, if_pos hseen]
        exact ih seen
      · rw [if_neg hseen, if_neg hseen, mapGet_getSupersetGroups, ih]

def c2ExA : SessionExercise := ⟨"a", "xa", "A", [], none, none, none⟩

def c2ExB : SessionExercise := ⟨"b", "xb", "B", [], none, some "group1", some 0⟩

def c2ExC : SessionExercise := ⟨"c", "xc", "C", [], none, some "group1", some 1⟩

def c2ExD : SessionExercise := ⟨"d", "xd", "D", [], none, none, none⟩

/-- **C2.** `getGroupedExercises` computes exactly the grouping the
specification describes — standalone items in place, one cluster per
group id at its first occurrence holding all items of that id sorted
stably by `supersetOrder`, later occurrences skipped — and on the P4
example it yields `[a, cluster{b,c}, d]` with `b` before `c`. -/
theorem getGroupedExercises_spec :
    (∀ exercises, getGroupedExercises exercises = groupedSpec exercises) ∧
    getGroupedExercises [c2ExA, c2ExB, c2ExC, c2ExD] =
      [DisplayUnit.single c2ExA, DisplayUnit.superset "group1" [c2ExB, c2ExC],
        DisplayUnit.single c2ExD] := by
  constructor
  · intro exercises
    exact groupedLoop_eq_spec exercises exercises []
  · decide

/-! ## C3: superset completion is derived from member completion -/

/-- A map that changes neither `id` nor `supersetGroupId` of any exercise
leaves the member-id list of every group unchanged. -/
theorem filter_map_memberIds (f : SessionExercise → SessionExercise)
    (hf : ∀ ex, (f ex).id = ex.id ∧ (f ex).supersetGroupId = ex.supersetGroupId)
    (l : List SessionExercise) (g : String) :
    ((l.map f).filter fun e => e.supersetGroupId = some g).map (·.id) =
      (l.filter fun e => e.supersetGroupId = some g).map (·.id) := by
  induction l with
  | nil => rfl
  | cons ex rest ih =>
    simp only [List.map_cons, List.filter_cons, (hf ex).2]
    by_cases hg : ex.supersetGroupId = some g
    · simp [hg, (hf ex).1, ih]
    · simp [hg, ih]

theorem memberIds_markExerciseComplete (g i : String) (st : SessionState) :
    memberIds g (markExerciseComplete i st) = memberIds g st := by
  unfold memberIds markExerciseComplete
  exact filter_map_memberIds _
    (fun ex => by by_cases h : ex.id = i <;> simp [h]) st.exercises g

theorem memberIds_markSupersetComplete (g gid : String) (st : SessionState) :
    memberIds g (markSupersetComplete gid st) = memberIds g st := by
  unfold memberIds markSupersetComplete
  exact filter_map_memberIds _
    (fun ex => by by_cases h : ex.supersetGroupId = some gid <;> simp [h]) st.exercises g

theorem markFold_memberIds (g : String) :
    ∀ (ids : List String) (st : SessionState),
      memberIds g (ids.foldl (fun s i => markExerciseComplete i s) st) = memberIds g st := by
  intro ids
  induction ids with
  | nil => intro st; rfl
  | cons i rest ih =>
    intro st
    rw [List.foldl_cons, ih, memberIds_markExerciseComplete]

theorem markFold_preserves_completed :
    ∀ (ids : List String) (st : SessionState) (j : String),
      j ∈ st.completedExercises →
      j ∈ ((ids.foldl (fun s i => markExerciseComplete i s) st)).completedExercises := by
  intro ids
  induction ids with
  | nil => intro st j hj; exact hj
  | cons i rest ih =>
    intro st j hj
    rw [List.foldl_cons]
    exact ih _ j (by simp [markExerciseComplete, mem_setAdd, hj])

theorem markFold_mem_completed :
    ∀ (ids : List String) (st : SessionState) (j : String),
      j ∈ ids →
      j ∈ ((ids.foldl (fun s i => markExerciseComplete i s) st)).completedExercises := by
  intro ids
  induction ids with
  | nil => intro st j hj; exact absurd hj (List.not_mem_nil j)
  | cons i rest ih =>
    intro st j hj
    rw [List.foldl_cons]
    rcases List.mem_cons.mp hj with rfl | hj
    · exact markFold_preserves_completed rest _ j
        (by simp [markExerciseComplete, mem_setAdd])
    · exact ih _ j hj

theorem foldl_setAdd_mem (l : List SessionExercise) :
    ∀ (acc : List String) (j : String),
      (j ∈ acc ∨ ∃ ex ∈ l, ex.id = j) →
      j ∈ l.foldl (fun next ex => setAdd next ex.id) acc := by
  induction l with
  | nil =>
    intro acc j hj
    rcases hj with hj | ⟨ex, hex, _⟩
    · exact hj
    · exact absurd hex (List.not_mem_nil ex)
  | cons ex rest ih =>
    intro acc j hj
    rw [List.foldl_cons]
    rcases hj with hj | ⟨ex', hex', rfl⟩
    · exact ih _ j (Or.inl (mem_setAdd.mpr (Or.inl hj)))
    · rcases List.mem_cons.mp hex' with rfl | hex'
      · exact ih _ _ (Or.inl (mem_setAdd.mpr (Or.inr rfl)))
      · exact ih _ _ (Or.inr ⟨ex', hex', rfl⟩)

/-- Membership phrasing of `isSupersetComplete`. -/
theorem isSupersetComplete_iff_members (g : String) (st : SessionState) :
    isSupersetComplete g st = true ↔
      ∀ ex ∈ st.exercises, ex.supersetGroupId = some g →
        ex.id ∈ st.completedExercises := by
  unfold isSupersetComplete
  rw [groupMembers_eq_filter, List.all_eq_true]
  constructor
  · intro h ex hex hg
    have := h ex (List.mem_filter.mpr ⟨hex, by simp [hg]⟩)
    exact List.elem_iff.mp this
  · intro h ex hex
    obtain ⟨hmem, hg⟩ := List.mem_filter.mp hex
    exact List.elem_iff.mpr (h ex hmem (by simpa using hg))

/-- **C3.** `isSupersetComplete` is derived — true exactly when every
member of the group is individually completed — and both completing every
member one at a time with `markExerciseComplete` and the superset-level
`markSupersetComplete` reach a state where it is true. -/
theorem isSupersetComplete_derived (st : SessionState) (g : String) :
    (isSupersetComplete g st = true ↔
      ∀ ex ∈ st.exercises, ex.supersetGroupId = some g →
        ex.id ∈ st.completedExercises) ∧
    isSupersetComplete g
      ((memberIds g st).foldl (fun s i => markExerciseComplete i s) st) = true ∧
    isSupersetComplete g (markSupersetComplete g st) = true := by
  refine ⟨isSupersetComplete_iff_members g st, ?_, ?_⟩
  · set st' := (memberIds g st).foldl (fun s i => markExerciseComplete i s) st with hst'
    rw [isSupersetComplete_iff_members]
    intro ex hex hg
    have hid : ex.id ∈ memberIds g st' := by
      unfold memberIds
      exact List.mem_map.mpr ⟨ex, List.mem_filter.mpr ⟨hex, by simp [hg]⟩, rfl⟩
    rw [hst', markFold_memberIds] at hid
    exact markFold_mem_completed _ _ _ hid
  · rw [isSupersetComplete_iff_members]
    intro ex hex hg
    have hid : ex.id ∈ memberIds g (markSupersetComplete g st) := by
      unfold memberIds
      exact List.mem_map.mpr ⟨ex, List.mem_filter.mpr ⟨hex, by simp [hg]⟩, rfl⟩
    rw [memberIds_markSupersetComplete] at hid
    unfold memberIds at hid
    obtain ⟨ex₀, hex₀, hid₀⟩ := List.mem_map.mp hid
    show ex.id ∈ (markSupersetComplete g st).completedExercises
    have : (markSupersetComplete g st).completedExercises =
        (groupMembers st.exercises g).foldl (fun next e => setAdd next e.id)
          st.completedExercises := rfl
    rw [this, groupMembers_eq_filter]
    exact foldl_setAdd_mem _ _ _ (Or.inr ⟨ex₀, hex₀, hid₀⟩)

def c3St : SessionState :=
  ⟨[⟨"b", "xb", "B", [⟨"s1", 8, 40, none, false⟩], none, some "group1", some 0⟩,
    ⟨"c", "xc", "C", [⟨"s2", 8, 40, none, false⟩], none, some "group1", some 1⟩],
    [], ["b", "c"]⟩

theorem isSupersetComplete_derived_witness :
    (isSupersetComplete "group1" c3St = true ↔
      ∀ ex ∈ c3St.exercises, ex.supersetGroupId = some "group1" →
        ex.id ∈ c3St.completedExercises) ∧
    isSupersetComplete "group1"
      ((memberIds "group1" c3St).foldl (fun s i => markExerciseComplete i s) c3St) = true ∧
    isSupersetComplete "group1" (markSupersetComplete "group1" c3St) = true :=
  isSupersetComplete_derived c3St "group1"

/-! ## C4: undo does not revert set flags -/

/-- **C4.** After `markExerciseComplete` on an exercise, a subsequent
`undoExerciseComplete` removes it from the completed set (back to
`Incomplete`) and re-expands it, while the exercise list — in particular
every per-set `completed` flag, all forced `true` by the mark — is left
untouched. -/
theorem undo_after_mark_keeps_set_flags (st : SessionState) (exerciseId : String) :
    exerciseId ∉
      (undoExerciseComplete exerciseId (markExerciseComplete exerciseId st)).completedExercises ∧
    exerciseId ∈
      (undoExerciseComplete exerciseId (markExerciseComplete exerciseId st)).expandedExercises ∧
    (undoExerciseComplete exerciseId (markExerciseComplete exerciseId st)).exercises =
      (markExerciseComplete exerciseId st).exercises ∧
    ∀ ex ∈ (undoExerciseComplete exerciseId (markExerciseComplete exerciseId st)).exercises,
      ex.id = exerciseId → ∀ s ∈ ex.sets, s.completed = true := by
  refine ⟨?_, ?_, rfl, ?_⟩
  · simp [undoExerciseComplete, mem_setDelete]
  · simp [undoExerciseComplete, mem_setAdd]
  · intro ex hex hid s hs
    simp only [undoExerciseComplete, markExerciseComplete, List.mem_map] at hex
    obtain ⟨ex₀, _, rfl⟩ := hex
    by_cases h₀ : ex₀.id = exerciseId
    · rw [if_pos h₀] at hs
      simp only [List.mem_map] at hs
      obtain ⟨s₀, _, rfl⟩ := hs
      rfl
    · rw [if_neg h₀] at hid
      exact absurd hid h₀

/-- Witness for C4 at a concrete state. -/
def c4Set : SessionSet := ⟨"s1", 10, 50, none, false⟩

def c4Ex : SessionExercise := ⟨"e1", "x1", "Bench", [c4Set], none, none, none⟩

def c4St : SessionState := ⟨[c4Ex], [], ["e1"]⟩

theorem undo_after_mark_keeps_set_flags_witness :
    "e1" ∉ (undoExerciseComplete "e1" (markExerciseComplete "e1" c4St)).completedExercises ∧
    "e1" ∈ (undoExerciseComplete "e1" (markExerciseComplete "e1" c4St)).expandedExercises ∧
    (undoExerciseComplete "e1" (markExerciseComplete "e1" c4St)).exercises =
      (markExerciseComplete "e1" c4St).exercises ∧
    ∀ ex ∈ (undoExerciseComplete "e1" (markExerciseComplete "e1" c4St)).exercises,
      ex.id = "e1" → ∀ s ∈ ex.sets, s.completed = true :=
  undo_after_mark_keeps_set_flags c4St "e1"

/-! ## C5: recordCompletion increments exactly the matching entry -/

/-- **C5.** When exactly one entry of the program matches `workoutId`,
`incrementProgramWorkoutCount` bumps that entry's `completedCount` by 1,
sets `lastCompletedWorkoutId` to the id, and leaves every other entry and
every other program field unchanged. -/
theorem incrementProgramWorkoutCount_frame (p : Program) (workoutId : String)
    (i : Nat) (w : ProgramWorkout)
    (hi : p.workouts[i]? = some w) (hw : w.workoutId = workoutId)
    (huniq : ∀ j w', j ≠ i → p.workouts[j]? = some w' → w'.workoutId ≠ workoutId) :
    (incrementProgramWorkoutCount p workoutId).workouts[i]? =
      some { w with completedCount := w.completedCount + 1 } ∧
    (∀ j, j ≠ i →
      (incrementProgramWorkoutCount p workoutId).workouts[j]? = p.workouts[j]?) ∧
    (incrementProgramWorkoutCount p workoutId).lastCompletedWorkoutId = some workoutId ∧
    (incrementProgramWorkoutCount p workoutId).id = p.id ∧
    (incrementProgramWorkoutCount p workoutId).name = p.name ∧
    (incrementProgramWorkoutCount p workoutId).active = p.active ∧
    (incrementProgramWorkoutCount p workoutId).createdAt = p.createdAt ∧
    (incrementProgramWorkoutCount p workoutId).archivedAt = p.archivedAt := by
  refine ⟨?_, ?_, rfl, rfl, rfl, rfl, rfl, rfl⟩
  · simp only [incrementProgramWorkoutCount, List.getElem?_map, hi, Option.map_some',
      if_pos hw]
  · intro j hj
    simp only [incrementProgramWorkoutCount, List.getElem?_map]
    cases hj' : p.workouts[j]? with
    | none => rfl
    | some w' =>
      have : w'.workoutId ≠ workoutId := huniq j w' hj hj'
      simp [this]

def c5Prog : Program :=
  ⟨"p", "P", true, [⟨"a", "A", 0, 2, 1⟩, ⟨"b", "B", 1, 3, 0⟩], none, "2024-01-01", none⟩

theorem incrementProgramWorkoutCount_frame_witness :
    (incrementProgramWorkoutCount c5Prog "a").workouts[0]? = some ⟨"a", "A", 0, 2, 2⟩ ∧
    (∀ j, j ≠ 0 →
      (incrementProgramWorkoutCount c5Prog "a").workouts[j]? = c5Prog.workouts[j]?) ∧
    (incrementProgramWorkoutCount c5Prog "a").lastCompletedWorkoutId = some "a" ∧
    (incrementProgramWorkoutCount c5Prog "a").id = c5Prog.id ∧
    (incrementProgramWorkoutCount c5Prog "a").name = c5Prog.name ∧
    (incrementProgramWorkoutCount c5Prog "a").active = c5Prog.active ∧
    (incrementProgramWorkoutCount c5Prog "a").createdAt = c5Prog.createdAt ∧
    (incrementProgramWorkoutCount c5Prog "a").archivedAt = c5Prog.archivedAt :=
  incrementProgramWorkoutCount_frame c5Prog "a" 0 ⟨"a", "A", 0, 2, 1⟩ (by decide) (by decide)
    (by
      intro j w' hj hj'
      match j, hj' with
      | 1, hj' => cases hj'; decide)

/-! ## C6: activateProgram keeps a single active program -/

/-- **C6.** After `addProgram`, exactly one stored program is active: every
previously active program has been deactivated and stamped with the
archive timestamp, and the inserted program is the sole active one. -/
theorem addProgram_single_active (db : List Program) (program : Program) (now : String) :
    (addProgram db program now).countP (fun p => p.active) = 1 ∧
    ∀ p ∈ db, p.active = true →
      { p with active := false, archivedAt := some now } ∈ addProgram db program now := by
  constructor
  · rw [addProgram, List.countP_append]
    have hzero : (db.map fun p =>
        if p.active then { p with active := false, archivedAt := some now } else p).countP
          (fun p => p.active) = 0 := by
      rw [List.countP_eq_zero]
      intro q hq
      simp only [List.mem_map] at hq
      obtain ⟨p, _, rfl⟩ := hq
      by_cases hp : p.active
      · simp [hp]
      · simp [hp]
    rw [hzero]
    rfl
  · intro p hp hact
    rw [addProgram]
    refine List.mem_append_left _ ?_
    rw [List.mem_map]
    exact ⟨p, hp, by rw [if_pos hact]⟩

/-! ## C8: guards on small supersets -/

/-- On a group id with no members, the superset completion actions are
full no-ops. -/
theorem superset_empty_group_noop (g : String) (st : SessionState)
    (h : ∀ ex ∈ st.exercises, ex.supersetGroupId ≠ some g) :
    markSupersetComplete g st = st ∧ undoSupersetComplete g st = st := by
  have hmembers : groupMembers st.exercises g = [] := by
    rw [groupMembers_eq_filter, List.filter_eq_nil_iff]
    intro ex hex
    simp [h ex hex]
  have hexs : (st.exercises.map fun ex =>
      if ex.supersetGroupId = some g then
        { ex with sets := ex.sets.map fun s => { s with completed := true } }
      else ex) = st.exercises :=
    map_eq_self _ _ fun ex hex => if_neg (h ex hex)
  constructor
  · simp only [markSupersetComplete, hmembers, List.foldl_nil, hexs]
  · simp only [undoSupersetComplete, hmembers, List.foldl_nil]

/-- **C8 (amended).** Creating a superset from fewer than 2 selected
exercises is rejected as a no-op, and the superset completion actions on
a group id with no members are no-ops; the code has no member-count
guard, so on a one-member group the actions do apply to that member (see
the counterexample). -/
theorem superset_small_guards (est : EditorState) (supersetId : String)
    (st : SessionState) (g : String)
    (hsel : est.selectedForSuperset.length < 2)
    (hempty : ∀ ex ∈ st.exercises, ex.supersetGroupId ≠ some g) :
    createSuperset est supersetId = est ∧
    markSupersetComplete g st = st ∧ undoSupersetComplete g st = st := by
  refine ⟨?_, superset_empty_group_noop g st hempty⟩
  unfold createSuperset
  exact if_pos hsel

/-- A session state whose single exercise forms a one-member superset
group `g1`, nothing completed yet. -/
def c8SingletonSt : SessionState :=
  ⟨[⟨"e1", "x1", "Curl", [⟨"s1", 10, 20, none, false⟩], none, some "g1", some 0⟩], [], ["e1"]⟩

/-- Counterexample to C8 as stated: marking a superset complete on a group
with one member (fewer than 2) is *not* a no-op — the member is completed. -/
theorem superset_singleton_counterexample :
    markSupersetComplete "g1" c8SingletonSt ≠ c8SingletonSt ∧
    "e1" ∈ (markSupersetComplete "g1" c8SingletonSt).completedExercises := by
  constructor
  · decide
  · decide

def c8Est : EditorState :=
  ⟨[⟨"e1", "x1", "Curl", 3, 10, none, none, none⟩], ["e1"], true⟩

def c8EmptySt : SessionState :=
  ⟨[⟨"e1", "x1", "Curl", [⟨"s1", 10, 20, none, false⟩], none, some "g1", some 0⟩],
    ["e1"], []⟩

theorem superset_small_guards_witness :
    createSuperset c8Est "superset-1" = c8Est ∧
    markSupersetComplete "g2" c8EmptySt = c8EmptySt ∧
    undoSupersetComplete "g2" c8EmptySt = c8EmptySt :=
  superset_small_guards c8Est "superset-1" c8EmptySt "g2" (by decide) (by decide)

/-! ## C9: ungrouping a superset cluster -/

def c9B : WorkoutExercise := ⟨"b", "xb", "B", 3, 10, none, some "g1", some 0⟩

def c9C : WorkoutExercise := ⟨"c", "xc", "C", 3, 10, none, some "g1", some 1⟩

/-- **C9 (observed behaviour).** Clicking Ungroup on the two-member
cluster `{b, c}` of group `g1` does *not* clear both members: every
`removeFromSuperset` call inside the `forEach` maps over the pre-click
`exercises` snapshot, the queued `setExercises` values overwrite one
another, and the surviving value is the one computed by the last call —
so `b` still carries `supersetGroupId = "g1"` and `supersetOrder = 0`,
while only `c` is cleared.  This contradicts the specified simultaneous
ungroup; a single-member `removeFromSuperset` does clear both fields of
its target, which is the evident intent of the loop. -/
theorem ungroup_partial_eval :
    ungroupClick [c9B, c9C] ["b", "c"] =
      [c9B, { c9C with supersetGroupId := none, supersetOrder := none }] ∧
    (ungroupClick [c9B, c9C] ["b", "c"]).head?.map (fun ex => ex.supersetGroupId) =
      some (some "g1") ∧
    removeFromSuperset [c9B, c9C] "b" =
      [{ c9B with supersetGroupId := none, supersetOrder := none }, c9C] := by
  refine ⟨by decide, by decide, by decide⟩

/-! ## C10: unmatched recordCompletion leaves a dangling reference -/

theorem startIndexOf_absent (lid : String) (sorted : List ProgramWorkout)
    (h : ∀ w ∈ sorted, w.workoutId ≠ lid) :
    startIndexOf (some lid) sorted = 0 := by
  unfold startIndexOf
  by_cases hlid : lid = ""
  · simp [hlid]
  · have hnone : findIndexJs (fun w => w.workoutId = lid) sorted = none := by
      rw [findIndexJs_eq_none_iff]
      intro w hw
      simp [h w hw]
    simp [hlid, hnone]

/-- **C10.** Calling `incrementProgramWorkoutCount` with a `workoutId`
matching no entry changes no `completedCount`, yet still sets
`lastCompletedWorkoutId` to the unmatched id; the sequencer then behaves
exactly as if no last-completed workout were recorded (start of the
sequence). -/
theorem increment_unmatched_dangling (p : Program) (workoutId : String)
    (h : ∀ w ∈ p.workouts, w.workoutId ≠ workoutId) :
    (incrementProgramWorkoutCount p workoutId).workouts = p.workouts ∧
    (incrementProgramWorkoutCount p workoutId).lastCompletedWorkoutId = some workoutId ∧
    getNextProgramWorkout (incrementProgramWorkoutCount p workoutId) =
      getNextProgramWorkout { p with lastCompletedWorkoutId := none } := by
  have hmap : (incrementProgramWorkoutCount p workoutId).workouts = p.workouts := by
    simp only [incrementProgramWorkoutCount]
    exact map_eq_self _ _ fun w hw => if_neg (by simp [h w hw])
  refine ⟨hmap, rfl, ?_⟩
  have hstart : startIndexOf (some workoutId) (stableSort seqLe p.workouts) = 0 :=
    startIndexOf_absent _ _ fun w hw => h w ((mem_stableSort _ _ _).mp hw)
  have hlast : (incrementProgramWorkoutCount p workoutId).lastCompletedWorkoutId =
      some workoutId := rfl
  simp only [getNextProgramWorkout, hmap, hlast]
  rw [hstart]
  rfl

def c10Prog : Program :=
  ⟨"p", "P", true, [⟨"a", "A", 0, 2, 1⟩, ⟨"b", "B", 1, 3, 0⟩], some "a", "2024-01-01", none⟩

theorem increment_unmatched_dangling_witness :
    (incrementProgramWorkoutCount c10Prog "ghost").workouts = c10Prog.workouts ∧
    (incrementProgramWorkoutCount c10Prog "ghost").lastCompletedWorkoutId = some "ghost" ∧
    getNextProgramWorkout (incrementProgramWorkoutCount c10Prog "ghost") =
      getNextProgramWorkout { c10Prog with lastCompletedWorkoutId := none } :=
  increment_unmatched_dangling c10Prog "ghost" (by decide)

def c6Old : Program := ⟨"old", "Old", true, [], none, "2024-01-01", none⟩

def c6New : Program := ⟨"new", "New", true, [], none, "2024-02-01", none⟩

theorem addProgram_single_active_witness :
    (addProgram [c6Old] c6New "2024-02-01T00:00:00Z").countP (fun p => p.active) = 1 ∧
    ∀ p ∈ [c6Old], p.active = true →
      { p with active := false, archivedAt := some "2024-02-01T00:00:00Z" } ∈
        addProgram [c6Old] c6New "2024-02-01T00:00:00Z" :=
  addProgram_single_active [c6Old] c6New "2024-02-01T00:00:00Z"

end FitTracker
